import Mathlib

/-!
Verification of the `permgroup` core module (`src/permgroup/core_py.py`).

The module turns a permutation given in disjoint-cycle notation (a Python
list of tuples of positive integers, called an *action*) into an array-based
successor map.  We embed the six functions of the module:

* `_verify_tuples_`   — format validator over arbitrary Python values,
* `_has_unique_points_` — disjointness checker,
* `_get_max_support_` — greatest point of the support,
* `_get_degree_`      — total count of points,
* `_is_identity_action_` — identity classifier,
* `_make_map_`        — the map builder.

Python values fed to the validator are modelled by the inductive `PyVal`;
validated actions are modelled as `List (List Nat)` (a list of cycles, each
a list of points).
-/

/-- A model of the Python values that can reach `_verify_tuples_`:
integers, floats (any non-integer number, represented opaquely), strings,
`None`, lists and tuples. -/
inductive PyVal : Type where
  | int : Int → PyVal
  | float : Int → PyVal
  | str : String → PyVal
  | none : PyVal
  | list : List PyVal → PyVal
  | tuple : List PyVal → PyVal

namespace PyVal

/-- `isinstance(v, tuple)`. -/
def isTuple : PyVal → Bool
  | .tuple _ => true
  | _ => false

/-- `isinstance(v, (int, long)) and v > 0` — the per-point test of the
validator's inner generator expression. -/
def isPosInt : PyVal → Bool
  | .int n => n > 0
  | _ => false

end PyVal

/-- Embedding of `_verify_tuples_` (core_py.py lines 26–62):
reject non-lists, reject the empty list, reject when some element is not a
tuple, then reject when some tuple holds a point that is not a positive
integer. -/
def _verify_tuples_ (action : PyVal) : Bool :=
  match action with
  | .list ts =>
    if ts.length = 0 then false
    else if ¬ (ts.all PyVal.isTuple) then false
    else ts.all fun t =>
      match t with
      | .tuple pnts => pnts.all PyVal.isPosInt
      | _ => true
  | _ => false

/-- The format contract as the spec words it: the value is a non-empty list,
every element is a tuple, and every element of every tuple is an integer
strictly greater than zero. -/
def SpecFormatValid (v : PyVal) : Prop :=
  ∃ ts : List PyVal, v = PyVal.list ts ∧ ts ≠ [] ∧
    ∀ t ∈ ts, ∃ pnts : List PyVal, t = PyVal.tuple pnts ∧
      ∀ p ∈ pnts, ∃ n : Int, p = PyVal.int n ∧ 0 < n

theorem verify_tuples_eq_spec (v : PyVal) :
    _verify_tuples_ v = true ↔ SpecFormatValid v := by
  cases v with
  | list ts =>
    simp only [_verify_tuples_, SpecFormatValid]
    by_cases hlen : ts.length = 0
    · simp only [hlen, if_true]
      constructor
      · intro h; cases h
      · rintro ⟨ts', hts', hne, -⟩
        cases hts'
        exact absurd (List.length_eq_zero.mp hlen) hne
    · simp only [hlen, if_false]
      by_cases htup : ts.all PyVal.isTuple
      · simp only [htup, not_true, if_false]
        constructor
        · intro h
          refine ⟨ts, rfl, fun he => hlen (by simp [he]), ?_⟩
          intro t ht
          have h1 := (List.all_eq_true.mp htup) t ht
          have h2 := (List.all_eq_true.mp h) t ht
          cases t with
          | tuple pnts =>
            refine ⟨pnts, rfl, ?_⟩
            intro p hp
            have := (List.all_eq_true.mp h2) p hp
            cases p with
            | int n => exact ⟨n, rfl, by simpa [PyVal.isPosInt] using this⟩
            | float x => simp [PyVal.isPosInt] at this
            | str s => simp [PyVal.isPosInt] at this
            | none => simp [PyVal.isPosInt] at this
            | list l => simp [PyVal.isPosInt] at this
            | tuple l => simp [PyVal.isPosInt] at this
          | int n => simp [PyVal.isTuple] at h1
          | float x => simp [PyVal.isTuple] at h1
          | str s => simp [PyVal.isTuple] at h1
          | none => simp [PyVal.isTuple] at h1
          | list l => simp [PyVal.isTuple] at h1
        · rintro ⟨ts', hts', -, hall⟩
          cases hts'
          refine List.all_eq_true.mpr ?_
          intro t ht
          obtain ⟨pnts, hp, hpa⟩ := hall t ht
          subst hp
          refine List.all_eq_true.mpr ?_
          intro p hp
          obtain ⟨n, hn, hpos⟩ := hpa p hp
          subst hn
          simpa [PyVal.isPosInt] using hpos
      · simp only [htup, not_false_iff, if_true]
        constructor
        · intro h; cases h
        · rintro ⟨ts', hts', -, hall⟩
          cases hts'
          refine absurd (List.all_eq_true.mpr ?_) htup
          intro t ht
          obtain ⟨pnts, hp, -⟩ := hall t ht
          subst hp
          rfl
  | int n => simp [_verify_tuples_, SpecFormatValid]
  | float x => simp [_verify_tuples_, SpecFormatValid]
  | str s => simp [_verify_tuples_, SpecFormatValid]
  | none => simp [_verify_tuples_, SpecFormatValid]
  | tuple ts => simp [_verify_tuples_, SpecFormatValid]

/-- C3: For every value, `_verify_tuples_` returns `true` iff the value
is a non-empty list whose elements are all tuples and every element of
every tuple is an integer strictly greater than zero — in particular it
returns `false` for the empty list, for any point `≤ 0` and for any
non-integer point. -/
theorem verify_tuples_iff (v : PyVal) :
    _verify_tuples_ v = true ↔ SpecFormatValid v :=
  verify_tuples_eq_spec v

/-!
## Validated actions

Once `_verify_tuples_` has accepted a value, it is a non-empty list of
tuples of positive integers; the remaining five functions are embedded over
`List (List Nat)` (each inner list a cycle of points).
-/

/-- A validated action: a list of cycles, each a list of points. -/
abbrev CycleAction : Type := List (List Nat)

/-- The shape guaranteed by the Format Validator: at least one cycle, and
every point strictly positive. -/
def ValidAction (action : CycleAction) : Prop :=
  action ≠ [] ∧ ∀ t ∈ action, ∀ p ∈ t, 0 < p

instance : DecidablePred ValidAction := fun action =>
  decidable_of_iff (action ≠ [] ∧ ∀ t ∈ action, ∀ p ∈ t, 0 < p) Iff.rfl

/-- Encode a validated action back into the Python-value model. -/
def CycleAction.toPyVal (action : CycleAction) : PyVal :=
  .list (action.map fun t => .tuple (t.map fun p => .int (Int.ofNat p)))

/-- The two views agree: the validator accepts the encoding of `action`
exactly when `action` is a valid action. -/
theorem verify_tuples_toPyVal (action : CycleAction) :
    _verify_tuples_ action.toPyVal = true ↔ ValidAction action := by
  rw [verify_tuples_eq_spec]
  constructor
  · rintro ⟨ts, hts, hne, hall⟩
    simp only [CycleAction.toPyVal, PyVal.list.injEq] at hts
    subst hts
    refine ⟨fun h => hne (by simp [h]), ?_⟩
    intro t ht p hp
    obtain ⟨pnts, hpt, hpa⟩ := hall _ (List.mem_map_of_mem _ ht)
    simp only [PyVal.tuple.injEq] at hpt
    have hpm : PyVal.int (Int.ofNat p) ∈ pnts := by
      rw [← hpt]
      exact List.mem_map_of_mem _ hp
    obtain ⟨n, hn, hnpos⟩ := hpa _ hpm
    simp only [PyVal.int.injEq] at hn
    cases hn
    exact Int.ofNat_pos.mp hnpos
  · rintro ⟨hne, hall⟩
    refine ⟨action.map fun t => PyVal.tuple (t.map fun p => PyVal.int (Int.ofNat p)),
      ?_, ?_, ?_⟩
    · rfl
    · simpa using hne
    · intro t ht
      obtain ⟨t0, ht0, rfl⟩ := List.mem_map.mp ht
      refine ⟨t0.map fun p => PyVal.int (Int.ofNat p), rfl, ?_⟩
      intro p hp
      obtain ⟨p0, hp0, rfl⟩ := List.mem_map.mp hp
      refine ⟨Int.ofNat p0, rfl, ?_⟩
      exact Int.ofNat_pos.mpr (hall t0 ht0 p0 hp0)

/-!
## Uniqueness checker

`_has_unique_points_` scans the cycles in order, accumulating seen points
into a set `S` and failing on the first repeat.  The seen-set is modelled
as the list of points added so far.
-/

/-- The inner `for pnt in t` loop of `_has_unique_points_`: add the points
of one cycle to the seen-set `S`, returning `none` on the first repeat
(the early `return False`). -/
def addPoints (S : List Nat) : List Nat → Option (List Nat)
  | [] => some S
  | pnt :: rest => if pnt ∈ S then none else addPoints (pnt :: S) rest

/-- The outer `for t in action` loop of `_has_unique_points_`. -/
def scanCycles (S : List Nat) : CycleAction → Bool
  | [] => true
  | t :: ts =>
    match addPoints S t with
    | none => false
    | some S2 => scanCycles S2 ts

/-- Embedding of `_has_unique_points_` (core_py.py lines 65–93). -/
def _has_unique_points_ (action : CycleAction) : Bool :=
  scanCycles [] action

theorem addPoints_isSome_iff {S t : List Nat} :
    (addPoints S t).isSome = true ↔ t.Nodup ∧ ∀ p ∈ t, p ∉ S := by
  induction t generalizing S with
  | nil => simp [addPoints]
  | cons pnt rest ih =>
    by_cases h : pnt ∈ S
    · rw [addPoints, if_pos h]
      constructor
      · intro hfalse; cases hfalse
      · rintro ⟨-, hs⟩
        exact absurd h (hs pnt (List.mem_cons_self _ _))
    · rw [addPoints, if_neg h, ih]
      constructor
      · rintro ⟨hnd, hs⟩
        have hpr : pnt ∉ rest := fun hm => (hs pnt hm) (List.mem_cons_self _ _)
        refine ⟨List.nodup_cons.mpr ⟨hpr, hnd⟩, ?_⟩
        intro p hp
        rcases List.mem_cons.mp hp with rfl | hp2
        · exact h
        · intro hpS
          exact (hs p hp2) (List.mem_cons_of_mem _ hpS)
      · rintro ⟨hnd, hs⟩
        obtain ⟨hpr, hnd2⟩ := List.nodup_cons.mp hnd
        refine ⟨hnd2, ?_⟩
        intro p hp hpS
        rcases List.mem_cons.mp hpS with rfl | hpS2
        · exact hpr hp
        · exact hs p (List.mem_cons_of_mem _ hp) hpS2

theorem addPoints_some_mem {S t S' : List Nat} (h : addPoints S t = some S') :
    ∀ x, x ∈ S' ↔ x ∈ t ∨ x ∈ S := by
  induction t generalizing S with
  | nil =>
    rw [addPoints] at h
    cases h
    intro x; simp
  | cons pnt rest ih =>
    by_cases hm : pnt ∈ S
    · rw [addPoints, if_pos hm] at h; cases h
    · rw [addPoints, if_neg hm] at h
      intro x
      rw [ih h x]
      simp only [List.mem_cons]
      tauto

theorem scanCycles_iff (ts : CycleAction) : ∀ S : List Nat,
    scanCycles S ts = true ↔ ts.flatten.Nodup ∧ ∀ p ∈ ts.flatten, p ∉ S := by
  induction ts with
  | nil => intro S; simp [scanCycles]
  | cons t ts ih =>
    intro S
    rw [scanCycles]
    cases haddp : addPoints S t with
    | none =>
      constructor
      · intro hfalse; cases hfalse
      · rintro ⟨hnd, hs⟩
        exfalso
        rw [List.flatten_cons, List.nodup_append] at hnd
        have hsome : (addPoints S t).isSome = true := by
          rw [addPoints_isSome_iff]
          refine ⟨hnd.1, ?_⟩
          intro p hp
          exact hs p (by rw [List.flatten_cons]; exact List.mem_append_left _ hp)
        rw [haddp] at hsome
        cases hsome
    | some S2 =>
      have hsome : (addPoints S t).isSome = true := by rw [haddp]; rfl
      rw [addPoints_isSome_iff] at hsome
      obtain ⟨hndt, hdisjS⟩ := hsome
      have hmem := addPoints_some_mem haddp
      rw [ih S2]
      rw [List.flatten_cons, List.nodup_append]
      constructor
      · rintro ⟨hndf, hsf⟩
        refine ⟨⟨hndt, hndf, ?_⟩, ?_⟩
        · intro a ha haf
          exact (hsf a haf) ((hmem a).mpr (Or.inl ha))
        · intro p hp
          rcases List.mem_append.mp hp with hpt | hpf
          · exact hdisjS p hpt
          · intro hpS
            exact (hsf p hpf) ((hmem p).mpr (Or.inr hpS))
      · rintro ⟨⟨-, hndf, hdisj⟩, hs⟩
        refine ⟨hndf, ?_⟩
        intro p hpf hpS2
        rcases (hmem p).mp hpS2 with hpt | hpS
        · exact hdisj hpt hpf
        · exact (hs p (List.mem_append_right _ hpf)) hpS

/-- C4: For every action, `_has_unique_points_` returns `true` iff no
point occurs in more than one cycle (the cycles are pairwise disjoint) and
no point occurs twice within the same cycle (each cycle has no duplicate).
This holds for arbitrary actions, in particular for every action that
passes the Format Validator. -/
theorem has_unique_points_iff (action : CycleAction) :
    _has_unique_points_ action = true ↔
      (∀ t ∈ action, t.Nodup) ∧ action.Pairwise List.Disjoint := by
  rw [_has_unique_points_, scanCycles_iff, ← List.nodup_flatten]
  simp

/-!
## Support analyzer, identity classifier and map builder
-/

/-- Embedding of `_get_max_support_` (core_py.py lines 96–121): running
maximum over all points, starting from `m = 0`. -/
def _get_max_support_ (action : CycleAction) : Nat :=
  action.foldl (fun m t => t.foldl (fun m pnt => if pnt > m then pnt else m) m) 0

/-- Embedding of `_get_degree_` (core_py.py lines 124–154): count the
point occurrences with a running counter. -/
def _get_degree_ (action : CycleAction) : Nat :=
  action.foldl (fun degree t => t.foldl (fun degree _ => degree + 1) degree) 0

/-- Embedding of `_is_identity_action_` (core_py.py lines 157–181). -/
def _is_identity_action_ (action : CycleAction) : Bool :=
  if _get_max_support_ action = 0 then true else false

/-- The first `k` iterations of the inner `for i in range(len(t))` loop of
`_make_map_`: write `t[(i + 1) % len(t)]` into slot `t[i]` for each `i < k`. -/
def writeCycleN (t : List Nat) (k : Nat) (L : List Nat) : List Nat :=
  (List.range k).foldl
    (fun L i => L.set (t.getD i 0) (t.getD ((i + 1) % t.length) 0)) L

/-- The full inner loop of `_make_map_` for one cycle `t`: all `len(t)`
iterations. -/
def writeCycle (L : List Nat) (t : List Nat) : List Nat :=
  writeCycleN t t.length L

/-- The outer `for t in action` loop of `_make_map_`. -/
def writeCycles (L : List Nat) (action : CycleAction) : List Nat :=
  action.foldl writeCycle L

/-- Embedding of `_make_map_` (core_py.py lines 184–216): in the identity
case return `[0]`; otherwise start from `range(max_support + 1)` with slot
`0` overwritten by the max support, then for each cycle `t` and each
`i < len(t)` write `t[(i + 1) % len(t)]` into slot `t[i]`. -/
def _make_map_ (action : CycleAction) : List Nat :=
  if _is_identity_action_ action = true then [0]
  else
    let max_support := _get_max_support_ action
    writeCycles ((List.range (max_support + 1)).set 0 max_support) action

theorem foldl_max_point (t : List Nat) : ∀ m : Nat,
    t.foldl (fun m pnt => if pnt > m then pnt else m) m = t.foldl max m := by
  induction t with
  | nil => intro m; rfl
  | cons pnt rest ih =>
    intro m
    rw [List.foldl_cons, List.foldl_cons, ih]
    congr 1
    rcases Nat.lt_or_ge m pnt with h | h
    · rw [if_pos h, Nat.max_eq_right (Nat.le_of_lt h)]
    · rw [if_neg (Nat.not_lt.mpr h), Nat.max_eq_left h]

theorem get_max_support_eq_foldl (action : CycleAction) :
    _get_max_support_ action = action.flatten.foldl max 0 := by
  rw [_get_max_support_]
  have key : ∀ (ts : CycleAction) (m : Nat),
      ts.foldl (fun m t => t.foldl (fun m pnt => if pnt > m then pnt else m) m) m
        = ts.flatten.foldl max m := by
    intro ts
    induction ts with
    | nil => intro m; rfl
    | cons t rest ih =>
      intro m
      rw [List.foldl_cons, List.flatten_cons, List.foldl_append,
        foldl_max_point, ih]
  exact key action 0

theorem le_foldl_max (t : List Nat) : ∀ m : Nat, m ≤ t.foldl max m := by
  induction t with
  | nil => intro m; exact Nat.le_refl m
  | cons q rest ih =>
    intro m
    rw [List.foldl_cons]
    exact le_trans (Nat.le_max_left m q) (ih (max m q))

theorem foldl_max_le (t : List Nat) : ∀ m p : Nat, p ∈ t → p ≤ t.foldl max m := by
  induction t with
  | nil => intro m p hp; cases hp
  | cons q rest ih =>
    intro m p hp
    rw [List.foldl_cons]
    rcases List.mem_cons.mp hp with rfl | hp2
    · exact le_trans (Nat.le_max_right m p) (le_foldl_max rest (max m p))
    · exact ih (max m q) p hp2

theorem foldl_max_mem (t : List Nat) : ∀ m : Nat,
    t.foldl max m = m ∨ t.foldl max m ∈ t := by
  induction t with
  | nil => intro m; exact Or.inl rfl
  | cons q rest ih =>
    intro m
    rw [List.foldl_cons]
    rcases ih (max m q) with h | h
    · rw [h]
      rcases Nat.le_total m q with hle | hle
      · exact Or.inr (by rw [Nat.max_eq_right hle]; exact List.mem_cons_self _ _)
      · exact Or.inl (Nat.max_eq_left hle)
    · exact Or.inr (List.mem_cons_of_mem _ h)

theorem max_support_ub (action : CycleAction) :
    ∀ p ∈ action.flatten, p ≤ _get_max_support_ action := by
  intro p hp
  rw [get_max_support_eq_foldl]
  exact foldl_max_le _ 0 p hp

theorem max_support_zero_or_mem (action : CycleAction) :
    _get_max_support_ action = 0 ∨ _get_max_support_ action ∈ action.flatten := by
  rw [get_max_support_eq_foldl]
  exact foldl_max_mem _ 0

theorem max_support_of_empty (action : CycleAction) :
    action.flatten = [] → _get_max_support_ action = 0 := by
  intro hnil
  rw [get_max_support_eq_foldl, hnil]
  rfl

/-- C8: `_get_max_support_` returns an upper bound of every point
occurring in any cycle, and its value is either `0` or itself a point of
some cycle — so it is the greatest point of the support, and `0` exactly
when the support is empty.  (Proved for arbitrary actions, in particular
for every format-valid one.) -/
theorem get_max_support_spec (action : CycleAction) :
    (∀ p ∈ action.flatten, p ≤ _get_max_support_ action) ∧
    (_get_max_support_ action = 0 ∨ _get_max_support_ action ∈ action.flatten) ∧
    (action.flatten = [] → _get_max_support_ action = 0) :=
  ⟨max_support_ub action, max_support_zero_or_mem action,
    max_support_of_empty action⟩

/-- Closed instance of `get_max_support_spec`: the inner hypothesis (the
support is empty) is discharged on the action `[()]`. -/
theorem get_max_support_spec_witness : _get_max_support_ [[]] = 0 :=
  (get_max_support_spec [[]]).2.2 rfl

theorem foldl_count (t : List Nat) : ∀ d : Nat,
    t.foldl (fun degree _ => degree + 1) d = d + t.length := by
  induction t with
  | nil => intro d; rfl
  | cons q rest ih =>
    intro d
    rw [List.foldl_cons, ih, List.length_cons]
    omega

/-- C9: `_get_degree_` returns the total number of point occurrences
across all cycles (the length of the concatenation of the cycles, counting
duplicates), and in particular `0` when every cycle is empty. -/
theorem get_degree_spec (action : CycleAction) :
    _get_degree_ action = action.flatten.length ∧
    ((∀ t ∈ action, t = []) → _get_degree_ action = 0) := by
  have key : _get_degree_ action = action.flatten.length := by
    rw [_get_degree_]
    have go : ∀ (ts : CycleAction) (d : Nat),
        ts.foldl (fun degree t => t.foldl (fun degree _ => degree + 1) degree) d
          = d + ts.flatten.length := by
      intro ts
      induction ts with
      | nil => intro d; simp
      | cons t rest ih =>
        intro d
        rw [List.foldl_cons, foldl_count, ih, List.flatten_cons,
          List.length_append]
        omega
    have := go action 0
    omega
  refine ⟨key, fun he => ?_⟩
  rw [key, List.flatten_eq_nil_iff.mpr he]
  rfl

/-- Closed instance of `get_degree_spec`: the inner hypothesis is
discharged on the all-empty action `[()]`. -/
theorem get_degree_spec_witness : _get_degree_ [[]] = 0 :=
  (get_degree_spec [[]]).2 (by decide)

theorem max_support_eq_zero_iff {action : CycleAction}
    (h : ∀ t ∈ action, ∀ p ∈ t, 0 < p) :
    _get_max_support_ action = 0 ↔ ∀ t ∈ action, t = [] := by
  constructor
  · intro h0 t ht
    cases t with
    | nil => rfl
    | cons p rest =>
      exfalso
      have hp : p ∈ action.flatten :=
        List.mem_flatten.mpr ⟨_, ht, List.mem_cons_self _ _⟩
      have hle := max_support_ub action p hp
      rw [h0] at hle
      exact absurd (Nat.lt_of_lt_of_le (h _ ht p (List.mem_cons_self _ _)) hle)
        (Nat.lt_irrefl 0)
  · intro hall
    exact max_support_of_empty action (List.flatten_eq_nil_iff.mpr hall)

/-- C7: For every action that passes the Format Validator,
`_is_identity_action_` returns `true` iff the max support is `0`, and
equivalently iff every cycle of the action is empty (no matter how many
empty cycles it lists). -/
theorem is_identity_action_iff (action : CycleAction) (h : ValidAction action) :
    (_is_identity_action_ action = true ↔ _get_max_support_ action = 0) ∧
    (_is_identity_action_ action = true ↔ ∀ t ∈ action, t = []) := by
  have hbool : _is_identity_action_ action = true ↔ _get_max_support_ action = 0 := by
    rw [_is_identity_action_]
    by_cases h0 : _get_max_support_ action = 0
    · simp [h0]
    · simp [h0]
  exact ⟨hbool, hbool.trans (max_support_eq_zero_iff h.2)⟩

/-- Closed instance of `is_identity_action_iff`: applied to the two-empty-
cycle action `[(),()]` (valid) and evaluated. -/
theorem is_identity_action_iff_witness : _is_identity_action_ [[], []] = true :=
  ((is_identity_action_iff [[], []] (by decide)).2).mpr (by decide)

/-- C5: For every format-valid, disjoint action in which every cycle is
empty (the identity case, max support `0`), `_make_map_` returns exactly
`[0]`. -/
theorem make_map_identity (action : CycleAction) (h : ValidAction action)
    (he : ∀ t ∈ action, t = []) :
    _make_map_ action = [0] := by
  have h0 : _get_max_support_ action = 0 := (max_support_eq_zero_iff h.2).mpr he
  have hid : _is_identity_action_ action = true := by
    rw [_is_identity_action_, if_pos h0]
  rw [_make_map_, if_pos hid]

/-- Closed instance of `make_map_identity` on the identity action `[()]`. -/
theorem make_map_identity_witness : _make_map_ [[]] = [0] :=
  make_map_identity [[]] (by decide) (by decide)

/-!
## Pointwise characterization of the map builder

`writeCycleN`/`writeCycle`/`writeCycles` perform a sequence of writes into
the array `L`.  When the action is disjoint every slot is written at most
once, which yields a pointwise description of the result.
-/

theorem getD_eq_getElem_of_lt (t : List Nat) {i : Nat} (h : i < t.length) :
    t.getD i 0 = t[i] := by
  rw [List.getD_eq_getElem?_getD, List.getElem?_eq_getElem h]
  rfl

theorem getD_mem_of_lt (t : List Nat) {i : Nat} (h : i < t.length) :
    t.getD i 0 ∈ t := by
  rw [getD_eq_getElem_of_lt t h]
  exact List.getElem_mem h

theorem writeCycleN_zero (t : List Nat) (L : List Nat) :
    writeCycleN t 0 L = L := rfl

theorem writeCycleN_succ (t : List Nat) (k : Nat) (L : List Nat) :
    writeCycleN t (k + 1) L
      = (writeCycleN t k L).set (t.getD k 0) (t.getD ((k + 1) % t.length) 0) := by
  rw [writeCycleN, writeCycleN, List.range_succ, List.foldl_append]
  rfl

theorem writeCycleN_length (t : List Nat) (k : Nat) (L : List Nat) :
    (writeCycleN t k L).length = L.length := by
  induction k with
  | zero => rfl
  | succ k ih => rw [writeCycleN_succ, List.length_set, ih]

theorem writeCycleN_getElem?_not_mem {t : List Nat} {j : Nat} (hj : j ∉ t)
    {k : Nat} (hk : k ≤ t.length) (L : List Nat) :
    (writeCycleN t k L)[j]? = L[j]? := by
  induction k with
  | zero => rfl
  | succ k ih =>
    have hk' : k < t.length := hk
    rw [writeCycleN_succ, List.getElem?_set_ne, ih (Nat.le_of_succ_le hk)]
    intro he
    exact hj (he ▸ getD_mem_of_lt t hk')

theorem writeCycleN_getElem?_written {t : List Nat} (hnd : t.Nodup)
    {L : List Nat} (hlen : ∀ p ∈ t, p < L.length) :
    ∀ {k : Nat}, k ≤ t.length → ∀ i < k,
      (writeCycleN t k L)[t.getD i 0]? = some (t.getD ((i + 1) % t.length) 0) := by
  intro k
  induction k with
  | zero => intro _ i hi; cases hi
  | succ k ih =>
    intro hk i hi
    have hkt : k < t.length := hk
    rw [writeCycleN_succ]
    rcases Nat.lt_or_ge i k with hik | hik
    · have hit : i < t.length := Nat.lt_trans hik hkt
      have hne : t.getD k 0 ≠ t.getD i 0 := by
        rw [getD_eq_getElem_of_lt t hkt, getD_eq_getElem_of_lt t hit]
        intro he
        exact Nat.ne_of_lt hik ((hnd.getElem_inj_iff).mp he).symm
      rw [List.getElem?_set_ne hne]
      exact ih (Nat.le_of_succ_le hk) i hik
    · have hieq : i = k := Nat.le_antisymm (Nat.lt_succ_iff.mp hi) hik
      subst hieq
      have hmem : t.getD i 0 < (writeCycleN t i L).length := by
        rw [writeCycleN_length]
        exact hlen _ (getD_mem_of_lt t hkt)
      rw [List.getElem?_set_self hmem]

theorem writeCycle_length (L : List Nat) (t : List Nat) :
    (writeCycle L t).length = L.length :=
  writeCycleN_length t t.length L

theorem writeCycle_getElem?_not_mem {t : List Nat} {j : Nat} (hj : j ∉ t)
    (L : List Nat) : (writeCycle L t)[j]? = L[j]? :=
  writeCycleN_getElem?_not_mem hj (Nat.le_refl _) L

theorem writeCycle_getElem?_written {t : List Nat} (hnd : t.Nodup)
    {L : List Nat} (hlen : ∀ p ∈ t, p < L.length) {i : Nat} (hi : i < t.length) :
    (writeCycle L t)[t.getD i 0]? = some (t.getD ((i + 1) % t.length) 0) :=
  writeCycleN_getElem?_written hnd hlen (Nat.le_refl _) i hi

theorem writeCycles_cons (L : List Nat) (t0 : List Nat) (ts : CycleAction) :
    writeCycles L (t0 :: ts) = writeCycles (writeCycle L t0) ts := rfl

theorem writeCycles_length (action : CycleAction) :
    ∀ L : List Nat, (writeCycles L action).length = L.length := by
  induction action with
  | nil => intro L; rfl
  | cons t0 ts ih =>
    intro L
    rw [writeCycles_cons, ih, writeCycle_length]

theorem writeCycles_getElem?_not_mem (action : CycleAction) {j : Nat}
    (hj : ∀ t ∈ action, j ∉ t) :
    ∀ L : List Nat, (writeCycles L action)[j]? = L[j]? := by
  induction action with
  | nil => intro L; rfl
  | cons t0 ts ih =>
    intro L
    rw [writeCycles_cons, ih (fun t ht => hj t (List.mem_cons_of_mem _ ht)),
      writeCycle_getElem?_not_mem (hj t0 (List.mem_cons_self _ _))]

theorem writeCycles_getElem?_written (action : CycleAction)
    (hnd : action.flatten.Nodup) :
    ∀ L : List Nat, (∀ p ∈ action.flatten, p < L.length) →
      ∀ t ∈ action, ∀ i, i < t.length →
        (writeCycles L action)[t.getD i 0]? = some (t.getD ((i + 1) % t.length) 0) := by
  induction action with
  | nil => intro L _ t ht; cases ht
  | cons t0 ts ih =>
    intro L hlen t ht i hi
    rw [List.flatten_cons, List.nodup_append] at hnd
    obtain ⟨hnd0, hndts, hdisj⟩ := hnd
    rcases List.mem_cons.mp ht with rfl | hts
    · rw [writeCycles_cons]
      have hnotmem : ∀ s ∈ ts, t.getD i 0 ∉ s := by
        intro s hs hmem
        exact hdisj (getD_mem_of_lt t hi) (List.mem_flatten.mpr ⟨s, hs, hmem⟩)
      rw [writeCycles_getElem?_not_mem ts hnotmem]
      exact writeCycle_getElem?_written hnd0
        (fun p hp => hlen p (by rw [List.flatten_cons]; exact List.mem_append_left _ hp)) hi
    · rw [writeCycles_cons]
      refine ih hndts (writeCycle L t0) ?_ t hts i hi
      intro p hp
      rw [writeCycle_length]
      exact hlen p (by rw [List.flatten_cons]; exact List.mem_append_right _ hp)

theorem nodup_of_unique {action : CycleAction}
    (hu : _has_unique_points_ action = true) : action.flatten.Nodup := by
  rw [_has_unique_points_, scanCycles_iff] at hu
  exact hu.1

theorem not_identity_of_max_pos {action : CycleAction}
    (hm : 1 ≤ _get_max_support_ action) :
    ¬ _is_identity_action_ action = true := by
  rw [_is_identity_action_]
  intro h
  by_cases h0 : _get_max_support_ action = 0
  · omega
  · rw [if_neg h0] at h
    cases h

theorem make_map_eq_writeCycles {action : CycleAction}
    (hm : 1 ≤ _get_max_support_ action) :
    _make_map_ action =
      writeCycles ((List.range (_get_max_support_ action + 1)).set 0
        (_get_max_support_ action)) action := by
  rw [_make_map_, if_neg (not_identity_of_max_pos hm)]

theorem make_map_length {action : CycleAction}
    (hm : 1 ≤ _get_max_support_ action) :
    (_make_map_ action).length = _get_max_support_ action + 1 := by
  rw [make_map_eq_writeCycles hm, writeCycles_length, List.length_set,
    List.length_range]

theorem make_map_getElem?_zero {action : CycleAction}
    (hpos : ∀ t ∈ action, ∀ p ∈ t, 0 < p)
    (hm : 1 ≤ _get_max_support_ action) :
    (_make_map_ action)[0]? = some (_get_max_support_ action) := by
  have hzero : ∀ t ∈ action, 0 ∉ t := by
    intro t ht h0
    exact absurd (hpos t ht 0 h0) (Nat.lt_irrefl 0)
  rw [make_map_eq_writeCycles hm, writeCycles_getElem?_not_mem action hzero,
    List.getElem?_set_self (by rw [List.length_range]; omega)]

theorem points_lt_init_length {action : CycleAction} :
    ∀ p ∈ action.flatten,
      p < ((List.range (_get_max_support_ action + 1)).set 0
        (_get_max_support_ action)).length := by
  intro p hp
  rw [List.length_set, List.length_range]
  have := max_support_ub action p hp
  omega

theorem make_map_getElem?_cycle {action : CycleAction}
    (hu : _has_unique_points_ action = true)
    (hm : 1 ≤ _get_max_support_ action)
    {t : List Nat} (ht : t ∈ action) {i : Nat} (hi : i < t.length) :
    (_make_map_ action)[t.getD i 0]? = some (t.getD ((i + 1) % t.length) 0) := by
  rw [make_map_eq_writeCycles hm]
  exact writeCycles_getElem?_written action (nodup_of_unique hu) _
    points_lt_init_length t ht i hi

theorem make_map_getElem?_fixed {action : CycleAction}
    (hm : 1 ≤ _get_max_support_ action) {j : Nat} (h1 : 1 ≤ j)
    (h2 : j ≤ _get_max_support_ action) (hnot : ∀ t ∈ action, j ∉ t) :
    (_make_map_ action)[j]? = some j := by
  rw [make_map_eq_writeCycles hm, writeCycles_getElem?_not_mem action hnot,
    List.getElem?_set_ne (by omega), List.getElem?_range (by omega)]

/-- C1: For every action that passes the Format Validator and the
Uniqueness Checker and is not the identity (max support `m ≥ 1`),
`_make_map_` returns a sequence `L` of length `m + 1` with `L[0] = m`,
`L[p_i] = p_{(i+1) mod k}` for every cycle `(p_0, ..., p_{k-1})` and every
`i < k`, and `L[j] = j` for every `j` in `1..m` that appears in no cycle. -/
theorem make_map_spec (action : CycleAction) (hv : ValidAction action)
    (hu : _has_unique_points_ action = true)
    (hm : 1 ≤ _get_max_support_ action) :
    (_make_map_ action).length = _get_max_support_ action + 1 ∧
    (_make_map_ action)[0]? = some (_get_max_support_ action) ∧
    (∀ t ∈ action, ∀ i, i < t.length →
      (_make_map_ action)[t.getD i 0]? = some (t.getD ((i + 1) % t.length) 0)) ∧
    (∀ j, 1 ≤ j → j ≤ _get_max_support_ action → (∀ t ∈ action, j ∉ t) →
      (_make_map_ action)[j]? = some j) :=
  ⟨make_map_length hm, make_map_getElem?_zero hv.2 hm,
    fun _ ht _ hi => make_map_getElem?_cycle hu hm ht hi,
    fun _ h1 h2 hnot => make_map_getElem?_fixed hm h1 h2 hnot⟩

/-- Closed instance of `make_map_spec` on the action `[(1,2)]`, with every
hypothesis discharged: the map has length `3`, stores the max support `2`
in slot `0`, and maps `1 ↦ 2`. -/
theorem make_map_spec_witness :
    (_make_map_ [[1, 2]]).length = 3 ∧
    (_make_map_ [[1, 2]])[0]? = some 2 ∧
    (_make_map_ [[1, 2]])[1]? = some 2 := by
  have h := make_map_spec [[1, 2]] (by decide) (by decide) (by decide)
  exact ⟨h.1, h.2.1, h.2.2.1 [1, 2] (by decide) 0 (by decide)⟩

/-!
## Applying the built map

The source stores the permutation as an array `L` with `L[index]` giving
the action on `index`; applying the permutation to a point `p` is the
lookup `L[p]`.
-/

/-- Application of a built Permutation Map to a point, as the spec's
successor-function semantics reads it: the lookup `L[p]`. -/
def applyMap (L : List Nat) (p : Nat) : Nat :=
  L.getD p 0

theorem applyMap_eq {L : List Nat} {j v : Nat} (h : L[j]? = some v) :
    applyMap L j = v := by
  rw [applyMap, List.getD_eq_getElem?_getD, h]
  rfl

theorem max_pos_of_mem {action : CycleAction}
    (hpos : ∀ t ∈ action, ∀ p ∈ t, 0 < p) {t : List Nat} (ht : t ∈ action)
    (hne : t ≠ []) : 1 ≤ _get_max_support_ action := by
  obtain ⟨p, hp⟩ := List.exists_mem_of_ne_nil t hne
  have h1 : 0 < p := hpos t ht p hp
  have h2 : p ≤ _get_max_support_ action :=
    max_support_ub action p (List.mem_flatten.mpr ⟨t, ht, hp⟩)
  omega

/-- C2: Round-trip/cycle law: for every format-valid, disjoint action,
every non-empty cycle `(p_0, ..., p_{k-1})` of it and every `i < k`,
applying the map returned by `_make_map_` once to `p_i` yields
`p_{(i+1) mod k}`, and applying it `k` times starting from `p_0` returns
`p_0`. -/
theorem make_map_cycle_law (action : CycleAction) (hv : ValidAction action)
    (hu : _has_unique_points_ action = true) :
    ∀ t ∈ action, t ≠ [] →
      (∀ i, i < t.length →
        applyMap (_make_map_ action) (t.getD i 0)
          = t.getD ((i + 1) % t.length) 0) ∧
      (applyMap (_make_map_ action))^[t.length] (t.getD 0 0) = t.getD 0 0 := by
  intro t ht hne
  have hm : 1 ≤ _get_max_support_ action := max_pos_of_mem hv.2 ht hne
  have hk : 0 < t.length := List.length_pos.mpr hne
  have hstep : ∀ i, i < t.length →
      applyMap (_make_map_ action) (t.getD i 0)
        = t.getD ((i + 1) % t.length) 0 :=
    fun i hi => applyMap_eq (make_map_getElem?_cycle hu hm ht hi)
  refine ⟨hstep, ?_⟩
  have hiter : ∀ j : Nat,
      (applyMap (_make_map_ action))^[j] (t.getD 0 0)
        = t.getD (j % t.length) 0 := by
    intro j
    induction j with
    | zero => rw [Function.iterate_zero_apply, Nat.zero_mod]
    | succ j ih =>
      rw [Function.iterate_succ_apply', ih,
        hstep (j % t.length) (Nat.mod_lt _ hk), Nat.mod_add_mod]
  rw [hiter t.length, Nat.mod_self]

/-- Closed instance of `make_map_cycle_law` on the action `[(1,2)]`:
one application sends `1` to `2`, and two applications return to `1`. -/
theorem make_map_cycle_law_witness :
    applyMap (_make_map_ [[1, 2]]) 1 = 2 ∧
    (applyMap (_make_map_ [[1, 2]]))^[2] 1 = 1 := by
  have h := make_map_cycle_law [[1, 2]] (by decide) (by decide)
    [1, 2] (by decide) (by decide)
  exact ⟨h.1 0 (by decide), h.2⟩

/-!
## The built map permutes `1..m`
-/

theorem mem_iff_getD {t : List Nat} {p : Nat} :
    p ∈ t ↔ ∃ i, i < t.length ∧ t.getD i 0 = p := by
  constructor
  · intro hp
    obtain ⟨i, hi, he⟩ := List.getElem_of_mem hp
    exact ⟨i, hi, by rw [getD_eq_getElem_of_lt t hi, he]⟩
  · rintro ⟨i, hi, rfl⟩
    exact getD_mem_of_lt t hi

theorem nodup_getD_inj {t : List Nat} (hnd : t.Nodup) {i1 i2 : Nat}
    (h1 : i1 < t.length) (h2 : i2 < t.length)
    (h : t.getD i1 0 = t.getD i2 0) : i1 = i2 := by
  rw [getD_eq_getElem_of_lt t h1, getD_eq_getElem_of_lt t h2] at h
  exact (hnd.getElem_inj_iff).mp h

theorem succ_mod_inj {k i1 i2 : Nat} (h1 : i1 < k) (h2 : i2 < k)
    (h : (i1 + 1) % k = (i2 + 1) % k) : i1 = i2 := by
  rcases Nat.lt_or_ge (i1 + 1) k with hk1 | hk1
  · rw [Nat.mod_eq_of_lt hk1] at h
    rcases Nat.lt_or_ge (i2 + 1) k with hk2 | hk2
    · rw [Nat.mod_eq_of_lt hk2] at h
      omega
    · have he : i2 + 1 = k := by omega
      rw [he, Nat.mod_self] at h
      omega
  · have he : i1 + 1 = k := by omega
    rw [he, Nat.mod_self] at h
    rcases Nat.lt_or_ge (i2 + 1) k with hk2 | hk2
    · rw [Nat.mod_eq_of_lt hk2] at h
      omega
    · omega

theorem flatten_nodup_cycle_unique {action : CycleAction}
    (hnd : action.flatten.Nodup) {t1 t2 : List Nat} (h1 : t1 ∈ action)
    (h2 : t2 ∈ action) {p : Nat} (hp1 : p ∈ t1) (hp2 : p ∈ t2) : t1 = t2 := by
  by_contra hne
  have hpw : action.Pairwise List.Disjoint := (List.nodup_flatten.mp hnd).2
  have hsym : Symmetric (List.Disjoint (α := Nat)) :=
    fun a b hab x hx1 hx2 => hab hx2 hx1
  exact (hpw.forall hsym h1 h2 hne) hp1 hp2

/-- C6: For every action that passes the Format Validator and the
Uniqueness Checker with max support `m ≥ 1`, reading the sequence returned
by `_make_map_` at the indices `1..m` gives a bijection of the set
`{1, ..., m}` onto itself — in particular every entry at those indices lies
between `1` and `m`. -/
theorem make_map_bijOn (action : CycleAction) (hv : ValidAction action)
    (hu : _has_unique_points_ action = true)
    (hm : 1 ≤ _get_max_support_ action) :
    Set.BijOn (fun j => applyMap (_make_map_ action) j)
      (Set.Icc 1 (_get_max_support_ action))
      (Set.Icc 1 (_get_max_support_ action)) := by
  have hnd : action.flatten.Nodup := nodup_of_unique hu
  have hbounds : ∀ t ∈ action, ∀ p ∈ t,
      1 ≤ p ∧ p ≤ _get_max_support_ action := by
    intro t ht p hp
    exact ⟨hv.2 t ht p hp,
      max_support_ub action p (List.mem_flatten.mpr ⟨t, ht, hp⟩)⟩
  have happ : ∀ t ∈ action, ∀ i, i < t.length →
      applyMap (_make_map_ action) (t.getD i 0)
        = t.getD ((i + 1) % t.length) 0 :=
    fun t ht i hi => applyMap_eq (make_map_getElem?_cycle hu hm ht hi)
  have hfix : ∀ j, 1 ≤ j → j ≤ _get_max_support_ action →
      (∀ t ∈ action, j ∉ t) → applyMap (_make_map_ action) j = j :=
    fun j ha hb hc => applyMap_eq (make_map_getElem?_fixed hm ha hb hc)
  refine ⟨?_, ?_, ?_⟩
  · -- maps into 1..m
    intro j hj
    rw [Set.mem_Icc] at hj
    by_cases hjf : ∃ t ∈ action, j ∈ t
    · obtain ⟨t, ht, hjt⟩ := hjf
      obtain ⟨i, hi, rfl⟩ := mem_iff_getD.mp hjt
      have hlt : (i + 1) % t.length < t.length :=
        Nat.mod_lt _ (Nat.lt_of_le_of_lt (Nat.zero_le i) hi)
      have hv2 := hbounds t ht _ (getD_mem_of_lt t hlt)
      rw [Set.mem_Icc]
      show 1 ≤ applyMap (_make_map_ action) (t.getD i 0) ∧
        applyMap (_make_map_ action) (t.getD i 0) ≤ _get_max_support_ action
      rw [happ t ht i hi]
      exact hv2
    · push_neg at hjf
      rw [Set.mem_Icc]
      show 1 ≤ applyMap (_make_map_ action) j ∧
        applyMap (_make_map_ action) j ≤ _get_max_support_ action
      rw [hfix j hj.1 hj.2 hjf]
      exact hj
  · -- injective on 1..m
    intro j1 hj1 j2 hj2 heq
    rw [Set.mem_Icc] at hj1 hj2
    simp only at heq
    by_cases hf1 : ∃ t ∈ action, j1 ∈ t
    · obtain ⟨t1, ht1, hjt1⟩ := hf1
      obtain ⟨i1, hi1, rfl⟩ := mem_iff_getD.mp hjt1
      rw [happ t1 ht1 i1 hi1] at heq
      by_cases hf2 : ∃ t ∈ action, j2 ∈ t
      · obtain ⟨t2, ht2, hjt2⟩ := hf2
        obtain ⟨i2, hi2, rfl⟩ := mem_iff_getD.mp hjt2
        rw [happ t2 ht2 i2 hi2] at heq
        have hk1 : (i1 + 1) % t1.length < t1.length :=
          Nat.mod_lt _ (Nat.lt_of_le_of_lt (Nat.zero_le i1) hi1)
        have hk2 : (i2 + 1) % t2.length < t2.length :=
          Nat.mod_lt _ (Nat.lt_of_le_of_lt (Nat.zero_le i2) hi2)
        have hteq : t1 = t2 := by
          refine flatten_nodup_cycle_unique hnd ht1 ht2
            (p := t1.getD ((i1 + 1) % t1.length) 0) (getD_mem_of_lt t1 hk1) ?_
          rw [heq]
          exact getD_mem_of_lt t2 hk2
        subst hteq
        have hnd1 : t1.Nodup := (List.nodup_flatten.mp hnd).1 t1 ht1
        have hieq := succ_mod_inj hi1 hi2
          (nodup_getD_inj hnd1 hk1 hk2 heq)
        rw [hieq]
      · push_neg at hf2
        rw [hfix j2 hj2.1 hj2.2 hf2] at heq
        exfalso
        have : j2 ∈ t1 := by
          rw [← heq]
          exact getD_mem_of_lt t1
            (Nat.mod_lt _ (Nat.lt_of_le_of_lt (Nat.zero_le i1) hi1))
        exact hf2 t1 ht1 this
    · push_neg at hf1
      rw [hfix j1 hj1.1 hj1.2 hf1] at heq
      by_cases hf2 : ∃ t ∈ action, j2 ∈ t
      · obtain ⟨t2, ht2, hjt2⟩ := hf2
        obtain ⟨i2, hi2, rfl⟩ := mem_iff_getD.mp hjt2
        rw [happ t2 ht2 i2 hi2] at heq
        exfalso
        have : j1 ∈ t2 := by
          rw [heq]
          exact getD_mem_of_lt t2
            (Nat.mod_lt _ (Nat.lt_of_le_of_lt (Nat.zero_le i2) hi2))
        exact hf1 t2 ht2 this
      · push_neg at hf2
        rw [hfix j2 hj2.1 hj2.2 hf2] at heq
        exact heq
  · -- surjective onto 1..m
    intro v hvm
    rw [Set.mem_Icc] at hvm
    by_cases hvf : ∃ t ∈ action, v ∈ t
    · obtain ⟨t, ht, hvt⟩ := hvf
      obtain ⟨i', hi', rfl⟩ := mem_iff_getD.mp hvt
      have hkpos : 0 < t.length := Nat.lt_of_le_of_lt (Nat.zero_le i') hi'
      have hi : (i' + (t.length - 1)) % t.length < t.length :=
        Nat.mod_lt _ hkpos
      have hsucc : ((i' + (t.length - 1)) % t.length + 1) % t.length = i' := by
        rw [Nat.mod_add_mod]
        have : i' + (t.length - 1) + 1 = i' + t.length := by omega
        rw [this, Nat.add_mod_right, Nat.mod_eq_of_lt hi']
      refine ⟨t.getD ((i' + (t.length - 1)) % t.length) 0, ?_, ?_⟩
      · rw [Set.mem_Icc]
        exact hbounds t ht _ (getD_mem_of_lt t hi)
      · simp only
        rw [happ t ht _ hi, hsucc]
    · push_neg at hvf
      exact ⟨v, Set.mem_Icc.mpr hvm, hfix v hvm.1 hvm.2 hvf⟩

/-- Closed instance of `make_map_bijOn` on the action `[(1,2)]` with all
hypotheses discharged: reading the map at indices `1..2` is a bijection of
`{1, 2}`. -/
theorem make_map_bijOn_witness :
    Set.BijOn (fun j => applyMap (_make_map_ [[1, 2]]) j)
      (Set.Icc 1 2) (Set.Icc 1 2) :=
  make_map_bijOn [[1, 2]] (by decide) (by decide) (by decide)

/-!
## Frame property: no operation mutates its input

Python passes the action by reference; only list objects are mutable
(tuples and integers are immutable values).  We model the object heap as a
list of cells addressed by their index: the input action occupies one cell,
and `_make_map_` allocates a new cell for `L` (the `range(...)` call) and
performs its subscript assignments on that cell only.  Local objects that
never escape their function (the seen-set of `_has_unique_points_`) are
kept as plain values.
-/

/-- A mutable Python object: a list of tuples (an action) or a list of
integers (a permutation map). -/
inductive PyObj : Type where
  | tupList : List (List Nat) → PyObj
  | natList : List Nat → PyObj

/-- The object heap: cells addressed by index. -/
abbrev Heap : Type := List PyObj

/-- Allocate a fresh object, returning the new heap and the reference. -/
def alloc (h : Heap) (o : PyObj) : Heap × Nat :=
  (h ++ [o], h.length)

/-- Dereference an action: the list of tuples held in cell `r`. -/
def lookupAction (h : Heap) (r : Nat) : CycleAction :=
  match h.getD r (.tupList []) with
  | .tupList a => a
  | .natList _ => []

/-- The assignment `L[idx] = v` on the list object in cell `rL`. -/
def writeL (h : Heap) (rL : Nat) (idx v : Nat) : Heap :=
  match h.getD rL (.natList []) with
  | .natList L => h.set rL (.natList (L.set idx v))
  | .tupList _ => h

/-- Heap-level `_verify_tuples_`: it only reads the action object. -/
def verifyTuplesH (h : Heap) (r : Nat) : Bool × Heap :=
  (_verify_tuples_ (CycleAction.toPyVal (lookupAction h r)), h)

/-- Heap-level `_has_unique_points_`: it reads the action and mutates only
its local seen-set, which never escapes. -/
def hasUniquePointsH (h : Heap) (r : Nat) : Bool × Heap :=
  (_has_unique_points_ (lookupAction h r), h)

/-- Heap-level `_get_max_support_`: pure read. -/
def getMaxSupportH (h : Heap) (r : Nat) : Nat × Heap :=
  (_get_max_support_ (lookupAction h r), h)

/-- Heap-level `_get_degree_`: pure read. -/
def getDegreeH (h : Heap) (r : Nat) : Nat × Heap :=
  (_get_degree_ (lookupAction h r), h)

/-- Heap-level `_is_identity_action_`: pure read. -/
def isIdentityActionH (h : Heap) (r : Nat) : Bool × Heap :=
  (_is_identity_action_ (lookupAction h r), h)

/-- The inner loop of `_make_map_` as heap writes into cell `rL`. -/
def writeCycleH (rL : Nat) (hh : Heap) (t : List Nat) : Heap :=
  (List.range t.length).foldl
    (fun hh i => writeL hh rL (t.getD i 0) (t.getD ((i + 1) % t.length) 0)) hh

/-- The outer loop of `_make_map_` as heap writes into cell `rL`. -/
def writeCyclesH (rL : Nat) (hh : Heap) (action : CycleAction) : Heap :=
  action.foldl (writeCycleH rL) hh

/-- Heap-level `_make_map_`: in the identity case allocate `[0]`;
otherwise `L = range(max_support + 1)` allocates a fresh list object, and
both `L[0] = max_support` and every `L[t[i]] = t[(i+1) % len(t)]` are
writes into that fresh cell.  Returns the final heap and the reference to
`L`. -/
def makeMapH (h : Heap) (r : Nat) : Heap × Nat :=
  let action := lookupAction h r
  if _is_identity_action_ action = true then
    alloc h (.natList [0])
  else
    let max_support := _get_max_support_ action
    let hL := alloc h (.natList (List.range (max_support + 1)))
    let h2 := writeL hL.1 hL.2 0 max_support
    (writeCyclesH hL.2 h2 action, hL.2)

theorem writeL_getElem?_ne (h : Heap) (rL : Nat) (idx v : Nat) {i : Nat}
    (hi : i ≠ rL) : (writeL h rL idx v)[i]? = h[i]? := by
  rw [writeL]
  cases h.getD rL (.natList []) with
  | tupList a => rfl
  | natList L => exact List.getElem?_set_ne (fun he => hi he.symm)

theorem writeL_getElem?_at {h : Heap} {rL : Nat} {L : List Nat}
    (hL : h[rL]? = some (.natList L)) (idx v : Nat) :
    (writeL h rL idx v)[rL]? = some (.natList (L.set idx v)) := by
  have hlen : rL < h.length := (List.getElem?_eq_some_iff.mp hL).1
  have hD : h.getD rL (.natList []) = .natList L := by
    rw [List.getD_eq_getElem?_getD, hL]
    rfl
  rw [writeL, hD, List.getElem?_set_self hlen]

theorem foldl_writeL_getElem?_ne {rL : Nat} (f v : Nat → Nat) {j : Nat}
    (hj : j ≠ rL) :
    ∀ (xs : List Nat) (hh : Heap),
      (xs.foldl (fun hh x => writeL hh rL (f x) (v x)) hh)[j]? = hh[j]? := by
  intro xs
  induction xs with
  | nil => intro hh; rfl
  | cons x xs ih =>
    intro hh
    rw [List.foldl_cons, ih]
    exact writeL_getElem?_ne hh rL _ _ hj

theorem foldl_writeL_getElem?_at {rL : Nat} (f v : Nat → Nat) :
    ∀ (xs : List Nat) (hh : Heap) (L : List Nat),
      hh[rL]? = some (.natList L) →
      (xs.foldl (fun hh x => writeL hh rL (f x) (v x)) hh)[rL]?
        = some (.natList (xs.foldl (fun L x => L.set (f x) (v x)) L)) := by
  intro xs
  induction xs with
  | nil => intro hh L hL; exact hL
  | cons x xs ih =>
    intro hh L hL
    rw [List.foldl_cons, List.foldl_cons]
    exact ih _ _ (writeL_getElem?_at hL _ _)

theorem writeCycleH_getElem?_ne (rL : Nat) (t : List Nat) {j : Nat}
    (hj : j ≠ rL) (hh : Heap) : (writeCycleH rL hh t)[j]? = hh[j]? :=
  foldl_writeL_getElem?_ne (fun i => t.getD i 0)
    (fun i => t.getD ((i + 1) % t.length) 0) hj (List.range t.length) hh

theorem writeCycleH_getElem?_at (rL : Nat) (t : List Nat) (hh : Heap)
    (L : List Nat) (hL : hh[rL]? = some (.natList L)) :
    (writeCycleH rL hh t)[rL]? = some (.natList (writeCycle L t)) :=
  foldl_writeL_getElem?_at (fun i => t.getD i 0)
    (fun i => t.getD ((i + 1) % t.length) 0) (List.range t.length) hh L hL

theorem writeCyclesH_getElem?_ne (rL : Nat) (action : CycleAction) {j : Nat}
    (hj : j ≠ rL) : ∀ hh : Heap, (writeCyclesH rL hh action)[j]? = hh[j]? := by
  induction action with
  | nil => intro hh; rfl
  | cons t ts ih =>
    intro hh
    rw [writeCyclesH, List.foldl_cons]
    have hrest := ih (writeCycleH rL hh t)
    rw [writeCyclesH] at hrest
    rw [hrest]
    exact writeCycleH_getElem?_ne rL t hj hh

theorem writeCyclesH_getElem?_at (rL : Nat) (action : CycleAction) :
    ∀ (hh : Heap) (L : List Nat), hh[rL]? = some (.natList L) →
      (writeCyclesH rL hh action)[rL]?
        = some (.natList (writeCycles L action)) := by
  induction action with
  | nil => intro hh L hL; exact hL
  | cons t ts ih =>
    intro hh L hL
    rw [writeCyclesH, List.foldl_cons, writeCycles, List.foldl_cons]
    have hrest := ih (writeCycleH rL hh t) (writeCycle L t)
      (writeCycleH_getElem?_at rL t hh L hL)
    rw [writeCyclesH] at hrest
    rw [hrest]
    rfl

theorem makeMapH_frame (h : Heap) (r : Nat) :
    (∀ i, i < h.length → ((makeMapH h r).1)[i]? = h[i]?) ∧
    h.length ≤ (makeMapH h r).2 ∧
    ((makeMapH h r).1)[(makeMapH h r).2]?
      = some (.natList (_make_map_ (lookupAction h r))) := by
  by_cases hid : _is_identity_action_ (lookupAction h r) = true
  · have hmm : makeMapH h r = (h ++ [.natList [0]], h.length) := by
      simp only [makeMapH]
      rw [if_pos hid]
      rfl
    have hpure : _make_map_ (lookupAction h r) = [0] := by
      rw [_make_map_, if_pos hid]
    rw [hmm, hpure]
    refine ⟨?_, Nat.le_refl _, ?_⟩
    · intro i hi
      exact List.getElem?_append_left hi
    · exact List.getElem?_concat_length h _
  · have hmm : makeMapH h r =
        (writeCyclesH h.length
          (writeL (h ++ [.natList (List.range (_get_max_support_ (lookupAction h r) + 1))])
            h.length 0 (_get_max_support_ (lookupAction h r)))
          (lookupAction h r), h.length) := by
      simp only [makeMapH]
      rw [if_neg hid]
      rfl
    have hpure : _make_map_ (lookupAction h r) =
        writeCycles ((List.range (_get_max_support_ (lookupAction h r) + 1)).set 0
          (_get_max_support_ (lookupAction h r))) (lookupAction h r) := by
      rw [_make_map_, if_neg hid]
    rw [hmm, hpure]
    have hcell1 : (h ++ [PyObj.natList
        (List.range (_get_max_support_ (lookupAction h r) + 1))])[h.length]?
        = some (.natList (List.range (_get_max_support_ (lookupAction h r) + 1))) :=
      List.getElem?_concat_length h _
    have hcell2 := writeL_getElem?_at hcell1 0 (_get_max_support_ (lookupAction h r))
    refine ⟨?_, Nat.le_refl _, ?_⟩
    · intro i hi
      have hne : i ≠ h.length := Nat.ne_of_lt hi
      rw [writeCyclesH_getElem?_ne h.length (lookupAction h r) hne,
        writeL_getElem?_ne _ _ _ _ hne]
      exact List.getElem?_append_left hi
    · exact writeCyclesH_getElem?_at h.length (lookupAction h r) _ _ hcell2

/-- C10: No operation of the library mutates its input action: on the
heap model every pre-existing object is unchanged by every call — the five
read-only functions return the heap as they received it, and `_make_map_`
changes no cell below the original heap size.  The sequence `_make_map_`
returns lives in a freshly allocated cell (its reference is not a
pre-existing one, so it shares no structure with the input action) and
holds exactly the value computed by the pure `_make_map_`. -/
theorem no_input_mutation (h : Heap) (r : Nat) :
    (verifyTuplesH h r).2 = h ∧
    (hasUniquePointsH h r).2 = h ∧
    (getMaxSupportH h r).2 = h ∧
    (getDegreeH h r).2 = h ∧
    (isIdentityActionH h r).2 = h ∧
    (∀ i, i < h.length → ((makeMapH h r).1)[i]? = h[i]?) ∧
    h.length ≤ (makeMapH h r).2 ∧
    ((makeMapH h r).1)[(makeMapH h r).2]?
      = some (.natList (_make_map_ (lookupAction h r))) :=
  ⟨rfl, rfl, rfl, rfl, rfl, (makeMapH_frame h r).1, (makeMapH_frame h r).2.1,
    (makeMapH_frame h r).2.2⟩

/-- Closed instance of `no_input_mutation` on a one-cell heap holding the
action `[(1,2)]`: after `_make_map_` the action cell is unchanged. -/
theorem no_input_mutation_witness :
    ((makeMapH [PyObj.tupList [[1, 2]]] 0).1)[0]?
      = [PyObj.tupList [[1, 2]]][0]? :=
  (no_input_mutation [PyObj.tupList [[1, 2]]] 0).2.2.2.2.2.1 0 (by decide)
